import Mathlib

/-!
Shallow embedding of the rule-authoring and report-submission logic of the
eValidate repository (a React/Supabase compliance dashboard).

The embedded code lives in:
* src/src/pages/SystemConfigPage.tsx — rule parsing in handleSubmit,
  formatRuleValue, toggleRuleStatus, the add/edit/delete flows;
* src/src/pages/ReportFormPage.tsx — report submission handleSubmit;
* src/src/types/index.ts — the Rule, Product, Report, ComplianceViolation types.

Strings are modelled as List Char.  JavaScript numbers are modelled as exact
rationals plus NaN and signed Infinity (IEEE-754 double rounding and negative
zero are not modelled; no theorem below depends on values where they differ).
-/

namespace EValidate

/-- JavaScript whitespace characters recognised by String.prototype.trim and
by parseFloat's leading skip (space, tab, line feed, carriage return,
vertical tab, form feed, no-break space; further Unicode space code points
are not modelled). -/
def jsWhitespace (c : Char) : Bool :=
  c = ' ' || c = '\t' || c = '\n' || c = '\r' || c = '\x0b' || c = '\x0c' || c = ' '

/-- Drop leading JS whitespace. -/
def trimLeft : List Char → List Char
  | [] => []
  | c :: cs => if jsWhitespace c then trimLeft cs else c :: cs

/-- JavaScript String.prototype.trim on a character list. -/
def trim (s : List Char) : List Char :=
  ((trimLeft ((trimLeft s).reverse)).reverse)

/-- JavaScript String.prototype.split with a one-character separator:
the empty string splits to one empty part, and consecutive separators
produce empty parts. -/
def splitOnChar (sep : Char) : List Char → List (List Char)
  | [] => [[]]
  | c :: cs =>
    if c = sep then [] :: splitOnChar sep cs
    else
      match splitOnChar sep cs with
      | [] => [[c]]
      | p :: ps => (c :: p) :: ps

/-- JavaScript Array.prototype.join with a separator string. -/
def joinSep (sep : List Char) : List (List Char) → List Char
  | [] => []
  | [x] => x
  | x :: xs => x ++ sep ++ joinSep sep xs

theorem splitOnChar_ne_nil (sep : Char) (s : List Char) : splitOnChar sep s ≠ [] := by
  induction s with
  | nil => simp [splitOnChar]
  | cons c cs ih =>
    simp only [splitOnChar]
    split
    · simp
    · cases h : splitOnChar sep cs with
      | nil => simp
      | cons p ps => simp

theorem not_mem_of_mem_splitOnChar (sep : Char) (s part : List Char)
    (hp : part ∈ splitOnChar sep s) : sep ∉ part := by
  induction s generalizing part with
  | nil =>
    simp [splitOnChar] at hp
    simp [hp]
  | cons c cs ih =>
    simp only [splitOnChar] at hp
    by_cases hc : c = sep
    · simp [hc] at hp
      rcases hp with h | h
      · simp [h]
      · exact ih part h
    · cases h : splitOnChar sep cs with
      | nil => exact absurd h (splitOnChar_ne_nil sep cs)
      | cons p ps =>
        rw [if_neg hc, h] at hp
        rcases List.mem_cons.mp hp with h1 | h1
        · subst h1
          intro hmem
          rcases List.mem_cons.mp hmem with h2 | h2
          · exact hc h2.symm
          · exact ih p (by rw [h]; exact List.mem_cons_self p ps) h2
        · exact ih part (by rw [h]; exact List.mem_cons_of_mem p h1)

theorem trimLeft_suffix (s : List Char) : trimLeft s <:+ s := by
  induction s with
  | nil => exact List.suffix_refl _
  | cons c cs ih =>
    simp only [trimLeft]
    split
    · exact ih.trans (List.suffix_cons c cs)
    · exact List.suffix_refl _

theorem trimLeft_head_not_ws : ∀ {s c cs}, trimLeft s = c :: cs → jsWhitespace c = false := by
  intro s
  induction s with
  | nil => intro c cs h; simp [trimLeft] at h
  | cons x xs ih =>
    intro c cs h
    simp only [trimLeft] at h
    by_cases hx : jsWhitespace x
    · rw [if_pos hx] at h; exact ih h
    · rw [if_neg hx] at h
      injection h with h1 _
      subst h1
      simpa using hx

theorem trimLeft_cons_not_ws {c : Char} (cs : List Char) (h : jsWhitespace c = false) :
    trimLeft (c :: cs) = c :: cs := by
  simp [trimLeft, h]

theorem trimLeft_idem (s : List Char) : trimLeft (trimLeft s) = trimLeft s := by
  induction s with
  | nil => rfl
  | cons c cs ih =>
    simp only [trimLeft]
    split
    · exact ih
    · simp only [trimLeft]
      split
      · simp_all
      · rfl

theorem trimLeft_eq_self (s : List Char) (h : ∀ c ∈ s, jsWhitespace c = false) :
    trimLeft s = s := by
  cases s with
  | nil => rfl
  | cons c cs => exact trimLeft_cons_not_ws cs (h c (List.mem_cons_self c cs))

theorem mem_of_mem_trimLeft {a : Char} {s : List Char} (h : a ∈ trimLeft s) : a ∈ s :=
  (trimLeft_suffix s).sublist.mem h

theorem mem_of_mem_trim {a : Char} {s : List Char} (h : a ∈ trim s) : a ∈ s := by
  unfold trim at h
  rw [List.mem_reverse] at h
  have h2 := mem_of_mem_trimLeft h
  rw [List.mem_reverse] at h2
  exact mem_of_mem_trimLeft h2

theorem trim_eq_self (s : List Char) (h : ∀ c ∈ s, jsWhitespace c = false) :
    trim s = s := by
  unfold trim
  rw [trimLeft_eq_self s h, trimLeft_eq_self s.reverse (by intro c hc; exact h c (List.mem_reverse.mp hc))]
  exact List.reverse_reverse s

theorem trim_cons_ws {c : Char} (s : List Char) (h : jsWhitespace c = true) :
    trim (c :: s) = trim s := by
  unfold trim
  rw [show trimLeft (c :: s) = trimLeft s from by simp [trimLeft, h]]

theorem trim_idem (s : List Char) : trim (trim s) = trim s := by
  have htrim : trim s = (trimLeft ((trimLeft s).reverse)).reverse := rfl
  have h1 : trimLeft (trim s) = trim s := by
    cases hvr : trim s with
    | nil => rfl
    | cons c cs =>
      have hpre : trim s <+: trimLeft s := by
        rw [htrim]
        have hsuf : trimLeft ((trimLeft s).reverse) <:+ (trimLeft s).reverse :=
          trimLeft_suffix _
        have := hsuf.reverse
        simpa using this
      obtain ⟨t, ht⟩ := hpre
      rw [hvr] at ht
      have hcs : trimLeft s = c :: (cs ++ t) := by rw [← ht]; rfl
      have hc : jsWhitespace c = false := trimLeft_head_not_ws hcs
      exact trimLeft_cons_not_ws cs hc
  have h2 : trimLeft ((trim s).reverse) = (trim s).reverse := by
    rw [htrim, List.reverse_reverse, trimLeft_idem]
  calc trim (trim s) = (trimLeft ((trimLeft (trim s)).reverse)).reverse := rfl
    _ = (trimLeft ((trim s).reverse)).reverse := by rw [h1]
    _ = ((trim s).reverse).reverse := by rw [h2]
    _ = trim s := List.reverse_reverse _

theorem splitOnChar_eq_single (sep : Char) (s : List Char) (h : sep ∉ s) :
    splitOnChar sep s = [s] := by
  induction s with
  | nil => rfl
  | cons c cs ih =>
    have hc : ¬ c = sep := fun he => h (he ▸ List.mem_cons_self c cs)
    have hcs : sep ∉ cs := fun hm => h (List.mem_cons_of_mem c hm)
    simp only [splitOnChar, if_neg hc, ih hcs]

theorem splitOnChar_append_cons (sep : Char) (xs ys : List Char) (h : sep ∉ xs) :
    splitOnChar sep (xs ++ sep :: ys) = xs :: splitOnChar sep ys := by
  induction xs with
  | nil => simp [splitOnChar]
  | cons c cs ih =>
    have hc : ¬ c = sep := fun he => h (he ▸ List.mem_cons_self c cs)
    have hcs : sep ∉ cs := fun hm => h (List.mem_cons_of_mem c hm)
    simp only [List.cons_append, splitOnChar, if_neg hc, List.append_eq, ih hcs]

/-- Splitting the ", "-joined entries back on ',' and trimming each part
recovers the entries, provided every entry is comma-free and trimmed. -/
theorem split_trim_joinSep (es : List (List Char)) (hne : es ≠ [])
    (h : ∀ e ∈ es, (',' ∉ e) ∧ trim e = e) :
    (splitOnChar ',' (joinSep [',', ' '] es)).map trim = es := by
  induction es with
  | nil => exact absurd rfl hne
  | cons e rest ih =>
    cases rest with
    | nil =>
      have he := h e (List.mem_cons_self e [])
      rw [show joinSep [',', ' '] [e] = e from rfl,
        splitOnChar_eq_single ',' e he.1]
      simp [he.2]
    | cons e2 rest2 =>
      have he := h e (List.mem_cons_self e _)
      have hrest : ∀ x ∈ e2 :: rest2, (',' ∉ x) ∧ trim x = x :=
        fun x hx => h x (List.mem_cons_of_mem e hx)
      have hjoin : joinSep [',', ' '] (e :: e2 :: rest2)
          = e ++ ',' :: ' ' :: joinSep [',', ' '] (e2 :: rest2) := by
        simp [joinSep]
      rw [hjoin, splitOnChar_append_cons ',' e _ he.1]
      cases hsp : splitOnChar ',' (joinSep [',', ' '] (e2 :: rest2)) with
      | nil => exact absurd hsp (splitOnChar_ne_nil _ _)
      | cons p ps =>
        have hspace : ¬ (' ' = ',') := by decide
        have hstep : splitOnChar ',' (' ' :: joinSep [',', ' '] (e2 :: rest2))
            = (' ' :: p) :: ps := by
          simp only [splitOnChar, if_neg hspace, hsp]
        rw [hstep]
        have hih := ih (by simp) hrest
        rw [hsp] at hih
        simp only [List.map_cons] at hih ⊢
        rw [trim_cons_ws p (by decide)]
        rw [he.2]
        exact congrArg (e :: ·) hih

/-! ### JavaScript numbers

`parseFloat` and number-to-string conversion, modelled over exact rationals.
IEEE-754 rounding, negative zero, and exponent display for very large or very
small magnitudes are not modelled; no theorem below depends on inputs where
the model and a double-precision engine differ. -/

/-- A JavaScript numeric slot as it can appear in a stored rule value:
a finite number, a signed infinity, NaN, or undefined (the result of
destructuring a missing array element). -/
inductive JsNumU where
  | num : ℚ → JsNumU
  | posInf : JsNumU
  | negInf : JsNumU
  | nan : JsNumU
  | undef : JsNumU
  deriving DecidableEq, Repr

/-- Numeric value of a big-endian list of decimal digit characters. -/
def digitsToNat (ds : List Char) : ℕ :=
  ds.foldl (fun a c => 10 * a + (c.toNat - 48)) 0

/-- Longest digit run at the head of the input. -/
def takeDigits (s : List Char) : List Char := s.takeWhile Char.isDigit

/-- Input with its leading digit run removed. -/
def dropDigits (s : List Char) : List Char := s.dropWhile Char.isDigit

/-- Whether the next characters spell the JavaScript Infinity literal. -/
def matchesInfinity (s : List Char) : Bool :=
  decide (s.take 8 = "Infinity".toList)

/-- Digits of an optional exponent part; 0 when absent, mirroring
parseFloat's longest-valid-prefix rule. -/
def parseExponentDigits (neg : Bool) (s : List Char) : Int :=
  let ds := takeDigits s
  if ds = [] then 0
  else if neg then -(digitsToNat ds : Int) else (digitsToNat ds : Int)

/-- Optional sign of an exponent part. -/
def parseExponentSign (s : List Char) : Int :=
  match s with
  | '+' :: rest => parseExponentDigits false rest
  | '-' :: rest => parseExponentDigits true rest
  | rest => parseExponentDigits false rest

/-- An optional ExponentPart (e or E, an optional sign, then digits). -/
def parseExponent (s : List Char) : Int :=
  match s with
  | 'e' :: rest => parseExponentSign rest
  | 'E' :: rest => parseExponentSign rest
  | _ => 0

/-- Value of a decimal significand with integer digits, fraction digits and a
base-10 exponent. -/
def decimalValue (intDs fracDs : List Char) (e : Int) : ℚ :=
  ((digitsToNat intDs : ℚ) + (digitsToNat fracDs : ℚ) / (10 : ℚ) ^ fracDs.length)
    * (10 : ℚ) ^ e

/-- Apply an optional leading minus sign. -/
def signApply (neg : Bool) (q : ℚ) : ℚ := if neg then -q else q

/-- parseFloat after the sign has been consumed: an Infinity literal, or
digits with an optional fraction and exponent; NaN when no digits occur. -/
def parseFloatUnsigned (neg : Bool) (s : List Char) : JsNumU :=
  if matchesInfinity s then (if neg then JsNumU.negInf else JsNumU.posInf)
  else
    let intDs := takeDigits s
    let rest := dropDigits s
    if intDs = [] then
      match rest with
      | '.' :: r2 =>
        let fracDs := takeDigits r2
        if fracDs = [] then JsNumU.nan
        else JsNumU.num (signApply neg (decimalValue [] fracDs (parseExponent (dropDigits r2))))
      | _ => JsNumU.nan
    else
      match rest with
      | '.' :: r2 =>
        JsNumU.num (signApply neg (decimalValue intDs (takeDigits r2) (parseExponent (dropDigits r2))))
      | _ => JsNumU.num (signApply neg (decimalValue intDs [] (parseExponent rest)))

/-- parseFloat once leading whitespace is gone: an optional sign, then the
unsigned body. -/
def parseFloatTrimmed : List Char → JsNumU
  | [] => JsNumU.nan
  | c :: rest =>
    if c = '+' then parseFloatUnsigned false rest
    else if c = '-' then parseFloatUnsigned true rest
    else parseFloatUnsigned false (c :: rest)

/-- JavaScript parseFloat on a character list. -/
def parseFloat (s : List Char) : JsNumU :=
  parseFloatTrimmed (trimLeft s)

/-- The base-10 digits of a natural number, least significant first; the
fuel argument only bounds the recursion depth and any fuel of at least the
digit count gives the full digit list. -/
def natDigitsRevAux : ℕ → ℕ → List Char
  | 0, _ => []
  | fuel + 1, n =>
    if n = 0 then [] else Nat.digitChar (n % 10) :: natDigitsRevAux fuel (n / 10)

/-- Decimal rendering of a natural number. -/
def natToDigits (n : ℕ) : List Char :=
  if n = 0 then ['0'] else (natDigitsRevAux n n).reverse

/-- Decimal digits of a fraction r / d, produced by repeated multiplication
by 10; the fuel bounds the number of emitted digits and is never exhausted
for the denominators parseFloat can produce from inputs of sane length. -/
def fracDigitsAux : ℕ → ℕ → ℕ → List Char
  | 0, _, _ => []
  | _ + 1, 0, _ => []
  | fuel + 1, r, d => Nat.digitChar (r * 10 / d) :: fracDigitsAux fuel (r * 10 % d) d

/-- JavaScript number-to-string conversion for finite values: a minus sign
for negative values (tested on the numerator, which carries the sign),
the integer part, and the exact decimal fraction when one is present. -/
def ratToChars (q : ℚ) : List Char :=
  (if q.num < 0 then ['-'] else []) ++ natToDigits (q.num.natAbs / q.den) ++
    (if q.num.natAbs % q.den = 0 then []
     else '.' :: fracDigitsAux 120 (q.num.natAbs % q.den) q.den)

/-- String form of a JavaScript numeric slot, as a template literal renders it. -/
def numUToString : JsNumU → List Char
  | JsNumU.num q => ratToChars q
  | JsNumU.posInf => "Infinity".toList
  | JsNumU.negInf => "-Infinity".toList
  | JsNumU.nan => "NaN".toList
  | JsNumU.undef => "undefined".toList

theorem digitChar_isDigit {d : ℕ} (h : d < 10) : (Nat.digitChar d).isDigit = true := by
  interval_cases d <;> decide

theorem digitChar_toNat {d : ℕ} (h : d < 10) : (Nat.digitChar d).toNat = 48 + d := by
  interval_cases d <;> decide

theorem isDigit_not_ws {c : Char} (h : c.isDigit = true) : jsWhitespace c = false := by
  cases hb : jsWhitespace c
  · rfl
  · unfold jsWhitespace at hb
    simp only [Bool.or_eq_true, decide_eq_true_eq] at hb
    rcases hb with ((((((h1 | h1) | h1) | h1) | h1) | h1) | h1) <;>
      (subst h1; exact absurd h (by decide))

theorem isDigit_ne {c x : Char} (h : c.isDigit = true) (hx : x.isDigit = false) : c ≠ x := by
  intro he
  subst he
  rw [h] at hx
  exact Bool.noConfusion hx

theorem mem_natDigitsRevAux {c : Char} :
    ∀ {fuel n : ℕ}, c ∈ natDigitsRevAux fuel n → ∃ d, d < 10 ∧ c = Nat.digitChar d := by
  intro fuel
  induction fuel with
  | zero => intro n h; simp [natDigitsRevAux] at h
  | succ fuel ih =>
    intro n h
    rw [natDigitsRevAux] at h
    split at h
    · simp at h
    · rcases List.mem_cons.mp h with h1 | h1
      · exact ⟨n % 10, Nat.mod_lt n (by decide), h1⟩
      · exact ih h1

theorem mem_natToDigits_isDigit {c : Char} {n : ℕ} (h : c ∈ natToDigits n) :
    c.isDigit = true := by
  unfold natToDigits at h
  split at h
  · simp at h; subst h; decide
  · rw [List.mem_reverse] at h
    obtain ⟨d, hd, hc⟩ := mem_natDigitsRevAux h
    subst hc
    exact digitChar_isDigit hd

theorem natToDigits_ne_nil (n : ℕ) : natToDigits n ≠ [] := by
  unfold natToDigits
  split
  · simp
  · rename_i h
    simp only [ne_eq, List.reverse_eq_nil_iff]
    obtain ⟨m, rfl⟩ : ∃ m, n = m + 1 := ⟨n - 1, by omega⟩
    rw [natDigitsRevAux]
    simp [h]

theorem not_mem_natToDigits {x : Char} (hx : x.isDigit = false) (n : ℕ) :
    x ∉ natToDigits n := by
  intro h
  have := mem_natToDigits_isDigit h
  rw [hx] at this
  exact Bool.noConfusion this

theorem digitsToNat_append (ds : List Char) (c : Char) :
    digitsToNat (ds ++ [c]) = 10 * digitsToNat ds + (c.toNat - 48) := by
  simp [digitsToNat, List.foldl_append]

theorem digitsToNat_natDigitsRevAux :
    ∀ fuel n, n ≤ fuel → digitsToNat (natDigitsRevAux fuel n).reverse = n := by
  intro fuel
  induction fuel with
  | zero =>
    intro n h
    interval_cases n
    rfl
  | succ fuel ih =>
    intro n h
    rw [natDigitsRevAux]
    split
    · rename_i h0; subst h0; rfl
    · rename_i h0
      rw [List.reverse_cons, digitsToNat_append, ih (n / 10) (by omega),
        digitChar_toNat (Nat.mod_lt n (by decide))]
      omega

theorem digitsToNat_natToDigits (n : ℕ) : digitsToNat (natToDigits n) = n := by
  unfold natToDigits
  split
  · rename_i h; subst h; rfl
  · exact digitsToNat_natDigitsRevAux n n le_rfl

theorem takeDigits_all {s : List Char} (h : ∀ c ∈ s, c.isDigit = true) :
    takeDigits s = s :=
  List.takeWhile_eq_self_iff.mpr h

theorem dropDigits_all {s : List Char} (h : ∀ c ∈ s, c.isDigit = true) :
    dropDigits s = [] :=
  List.dropWhile_eq_nil_iff.mpr h

theorem matchesInfinity_cons_ne {c : Char} (cs : List Char) (h : c ≠ 'I') :
    matchesInfinity (c :: cs) = false := by
  unfold matchesInfinity
  rw [decide_eq_false_iff_not]
  intro habs
  have hred : (c :: cs).take 8 = c :: cs.take 7 := rfl
  rw [hred] at habs
  injection habs with h1 _
  exact h h1

/-- parseFloat recovers a natural number from its decimal rendering. -/
theorem parseFloat_natToDigits (n : ℕ) : parseFloat (natToDigits n) = JsNumU.num (n : ℚ) := by
  obtain ⟨c, cs, hds⟩ : ∃ c cs, natToDigits n = c :: cs := by
    cases h : natToDigits n with
    | nil => exact absurd h (natToDigits_ne_nil n)
    | cons c cs => exact ⟨c, cs, rfl⟩
  have hall : ∀ x ∈ natToDigits n, x.isDigit = true := fun x hx => mem_natToDigits_isDigit hx
  have hc : c.isDigit = true := hall c (hds ▸ List.mem_cons_self c cs)
  have htl : trimLeft (natToDigits n) = c :: cs := by
    rw [hds]
    exact trimLeft_cons_not_ws cs (isDigit_not_ws hc)
  unfold parseFloat
  rw [htl]
  simp only [parseFloatTrimmed,
    if_neg (isDigit_ne hc (by decide : ('+').isDigit = false)),
    if_neg (isDigit_ne hc (by decide : ('-').isDigit = false))]
  rw [← hds]
  unfold parseFloatUnsigned
  rw [show matchesInfinity (natToDigits n) = false from by
      rw [hds]; exact matchesInfinity_cons_ne cs (isDigit_ne hc (by decide))]
  simp only [if_false, Bool.false_eq_true]
  rw [takeDigits_all hall, dropDigits_all hall]
  rw [if_neg (natToDigits_ne_nil n)]
  show JsNumU.num (signApply false (decimalValue (natToDigits n) [] (parseExponent []))) = _
  have hexp : parseExponent [] = 0 := rfl
  rw [hexp]
  unfold decimalValue signApply
  rw [digitsToNat_natToDigits, show digitsToNat [] = 0 from rfl]
  norm_num

theorem ratToChars_natCast (n : ℕ) : ratToChars (n : ℚ) = natToDigits n := by
  unfold ratToChars
  rw [Rat.num_natCast, Rat.den_natCast]
  rw [if_neg (show ¬ ((n : ℤ) < 0) by omega)]
  simp [Nat.mod_one, Nat.div_one]

/-- parseFloat never produces the undefined marker. -/
theorem parseFloat_ne_undef (s : List Char) : parseFloat s ≠ JsNumU.undef := by
  have hu : ∀ neg t, parseFloatUnsigned neg t ≠ JsNumU.undef := by
    intro neg t habs
    unfold parseFloatUnsigned at habs
    dsimp only at habs
    split at habs
    · split at habs <;> exact JsNumU.noConfusion habs
    · split at habs
      · split at habs
        · split at habs <;> exact JsNumU.noConfusion habs
        · exact JsNumU.noConfusion habs
      · split at habs <;> exact JsNumU.noConfusion habs
  unfold parseFloat parseFloatTrimmed
  split
  · simp
  · (repeat' split) <;> apply hu

/-! ### The rule value codec

From src/src/pages/SystemConfigPage.tsx: the rule_value parsing in
handleSubmit (decoding) and formatRuleValue (encoding). -/

/-- The rule_type union from src/src/types/index.ts. -/
inductive RuleType where
  | presence
  | regex
  | list
  | range
  | custom
  deriving DecidableEq, Repr

/-- A stored rule_value as the authoring page can produce or as the spec's
canonical table describes: a raw string (what the page stores for regex and
custom rules), an array of strings (list rules), an object with min and max
slots (range rules), the object with required = true (presence rules), or an
object carrying a pattern string (the spec's canonical regex shape, which the
page itself never builds). -/
inductive RuleValue where
  | str : List Char → RuleValue
  | list : List (List Char) → RuleValue
  | range : JsNumU → JsNumU → RuleValue
  | required : RuleValue
  | patternObj : List Char → RuleValue
  deriving DecidableEq, Repr

/-- The rule_value parsing in SystemConfigPage.handleSubmit: list input is
split on commas with each part trimmed; range input is split on hyphens,
each part trimmed and parseFloat-ed, and the first two parts destructured
into min and max (a missing second part leaves max undefined); presence
ignores the text; regex and custom keep the raw text. -/
def parseRuleValue (t : RuleType) (text : List Char) : RuleValue :=
  match t with
  | RuleType.list => RuleValue.list ((splitOnChar ',' text).map trim)
  | RuleType.range =>
    let parts := (splitOnChar '-' text).map (fun v => parseFloat (trim v))
    RuleValue.range (parts.getD 0 JsNumU.undef) (parts.getD 1 JsNumU.undef)
  | RuleType.presence => RuleValue.required
  | _ => RuleValue.str text

/-- Hexadecimal digit character. -/
def hexDigit (n : ℕ) : Char := Nat.digitChar n

/-- JSON.stringify escaping of one character inside a string literal
(quote, backslash, the shorthand control escapes, and u-escapes for the
remaining control characters; lone surrogates are not modelled). -/
def jsonEscapeChar (c : Char) : List Char :=
  if c = '"' then ['\\', '"']
  else if c = '\\' then ['\\', '\\']
  else if c = '\x08' then ['\\', 'b']
  else if c = '\t' then ['\\', 't']
  else if c = '\n' then ['\\', 'n']
  else if c = '\x0c' then ['\\', 'f']
  else if c = '\r' then ['\\', 'r']
  else if c.toNat < 32 then
    ['\\', 'u', '0', '0', hexDigit (c.toNat / 16), hexDigit (c.toNat % 16)]
  else [c]

/-- A JSON string literal for the given text. -/
def jsonQuote (s : List Char) : List Char :=
  '"' :: (s.map jsonEscapeChar).flatten ++ ['"']

/-- JSON.stringify rendering of a numeric slot: finite numbers as decimals,
NaN and the infinities as null, undefined omitted (none). -/
def jsonNum : JsNumU → Option (List Char)
  | JsNumU.num q => some (ratToChars q)
  | JsNumU.posInf => some "null".toList
  | JsNumU.negInf => some "null".toList
  | JsNumU.nan => some "null".toList
  | JsNumU.undef => none

/-- JSON.stringify on a stored rule value. -/
def jsonStringify (v : RuleValue) : List Char :=
  match v with
  | RuleValue.str s => jsonQuote s
  | RuleValue.list es => '[' :: joinSep [','] (es.map jsonQuote) ++ [']']
  | RuleValue.range mn mx =>
    let fields :=
      (match jsonNum mn with
       | some r => [jsonQuote "min".toList ++ ':' :: r]
       | none => []) ++
      (match jsonNum mx with
       | some r => [jsonQuote "max".toList ++ ':' :: r]
       | none => [])
    '{' :: joinSep [','] fields ++ ['}']
  | RuleValue.required =>
    '{' :: jsonQuote "required".toList ++ ':' :: "true".toList ++ ['}']
  | RuleValue.patternObj p =>
    '{' :: jsonQuote "pattern".toList ++ ':' :: jsonQuote p ++ ['}']

/-- SystemConfigPage.formatRuleValue: an array value of a list rule joins its
entries with comma-space; an object value of a range rule prints through the
min-max template literal (reading the min and max slots, which are undefined
on a non-range object); any other value is returned as is when it is a
string and JSON.stringify-ed when not. -/
def formatRuleValue (value : RuleValue) (t : RuleType) : List Char :=
  match t, value with
  | RuleType.list, RuleValue.list es => joinSep [',', ' '] es
  | RuleType.range, RuleValue.range mn mx => numUToString mn ++ '-' :: numUToString mx
  | RuleType.range, RuleValue.list _ =>
    numUToString JsNumU.undef ++ '-' :: numUToString JsNumU.undef
  | RuleType.range, RuleValue.required =>
    numUToString JsNumU.undef ++ '-' :: numUToString JsNumU.undef
  | RuleType.range, RuleValue.patternObj _ =>
    numUToString JsNumU.undef ++ '-' :: numUToString JsNumU.undef
  | _, RuleValue.str s => s
  | _, v => jsonStringify v

/-- C8: decoding a presence rule value ignores the input text entirely and
always yields the object with required = true; no validation is performed. -/
theorem presence_decode_ignores_text (text : List Char) :
    parseRuleValue RuleType.presence text = RuleValue.required := rfl

/-- C4 counterexample: decoding the non-compiling pattern "[" does not fail
with InvalidPattern — handleSubmit stores the raw text unchanged. -/
theorem regex_decode_counterexample :
    parseRuleValue RuleType.regex "[".toList = RuleValue.str "[".toList := rfl

/-- C4 amended: decoding a regex rule value performs no compilation check and
cannot fail; every pattern, compiling or not (including the example pattern
for two capital letters), is stored as the raw text. -/
theorem regex_decode_stores_raw (p : List Char) :
    parseRuleValue RuleType.regex p = RuleValue.str p := rfl

/-- C3 counterexample: decoding the range text 10-5 does not fail with
MalformedRuleValue — handleSubmit performs no validation and stores the
object with min 10 and max 5 even though min exceeds max. -/
theorem range_decode_counterexample :
    parseRuleValue RuleType.range "10-5".toList
      = RuleValue.range (JsNumU.num 10) (JsNumU.num 5) := by
  simp +decide [parseRuleValue, splitOnChar, trim, trimLeft, jsWhitespace,
    parseFloat, parseFloatTrimmed, parseFloatUnsigned, matchesInfinity,
    takeDigits, dropDigits, List.takeWhile, List.dropWhile, decimalValue,
    signApply, parseExponent, digitsToNat, List.getD]

/-- C3 amended: range decoding splits on hyphens and parseFloats the first
two parts with no error channel: 0-1000 yields min 0 and max 1000; 10-5
yields min 10 and max 5 rather than failing; text without two numeric parts
yields NaN or undefined components instead of a MalformedRuleValue error. -/
theorem range_decode_no_validation :
    parseRuleValue RuleType.range "0-1000".toList
      = RuleValue.range (JsNumU.num 0) (JsNumU.num 1000) ∧
    parseRuleValue RuleType.range "10-5".toList
      = RuleValue.range (JsNumU.num 10) (JsNumU.num 5) ∧
    parseRuleValue RuleType.range "abc".toList
      = RuleValue.range JsNumU.nan JsNumU.undef := by
  refine ⟨?_, ?_, ?_⟩ <;>
    simp +decide [parseRuleValue, splitOnChar, trim, trimLeft, jsWhitespace,
      parseFloat, parseFloatTrimmed, parseFloatUnsigned, matchesInfinity,
      takeDigits, dropDigits, List.takeWhile, List.dropWhile, decimalValue,
      signApply, parseExponent, digitsToNat, List.getD]

/-- C5 counterexample: decoding the empty list text is not rejected and
produces a single empty-string entry, so empty entries do appear in the
stored value. -/
theorem list_decode_counterexample :
    parseRuleValue RuleType.list "".toList = RuleValue.list [[]] := by decide

/-- C5 amended: list decoding splits the text on commas and trims every part;
the result always has at least one entry and each entry is trimmed and
comma-free, but entries may be empty strings and no input is ever
rejected. -/
theorem list_decode_splits_and_trims (text : List Char) :
    parseRuleValue RuleType.list text
      = RuleValue.list ((splitOnChar ',' text).map trim) ∧
    (splitOnChar ',' text).map trim ≠ [] ∧
    ∀ e ∈ (splitOnChar ',' text).map trim, trim e = e ∧ ',' ∉ e := by
  refine ⟨rfl, ?_, ?_⟩
  · intro h
    rw [List.map_eq_nil_iff] at h
    exact splitOnChar_ne_nil ',' text h
  · intro e he
    obtain ⟨p, hp, hpe⟩ := List.mem_map.mp he
    subst hpe
    refine ⟨trim_idem p, fun hm => ?_⟩
    exact not_mem_of_mem_splitOnChar ',' text p hp (mem_of_mem_trim hm)

/-- C5 witness: the amended list decoding at a concrete text, with the
membership hypothesis discharged at a concrete entry. -/
theorem list_decode_splits_and_trims_witness :
    parseRuleValue RuleType.list " a ,b".toList
      = RuleValue.list ((splitOnChar ',' " a ,b".toList).map trim) ∧
    trim ['a'] = ['a'] ∧ (',' ∉ ['a']) :=
  ⟨(list_decode_splits_and_trims " a ,b".toList).1,
   ((list_decode_splits_and_trims " a ,b".toList).2.2 ['a'] (by decide)).1,
   ((list_decode_splits_and_trims " a ,b".toList).2.2 ['a'] (by decide)).2⟩

/-- C7: formatRuleValue joins a list value's entries with comma-space, prints
a range value through the min-max template literal, and for every other kind
returns a string value unchanged and the JSON serialization of a non-string
value. -/
theorem formatRuleValue_spec :
    (∀ es, formatRuleValue (RuleValue.list es) RuleType.list = joinSep [',', ' '] es) ∧
    (∀ mn mx, formatRuleValue (RuleValue.range mn mx) RuleType.range
      = numUToString mn ++ '-' :: numUToString mx) ∧
    (∀ t, t ≠ RuleType.list → t ≠ RuleType.range →
      (∀ s, formatRuleValue (RuleValue.str s) t = s) ∧
      ∀ v, (∀ s, v ≠ RuleValue.str s) → formatRuleValue v t = jsonStringify v) := by
  refine ⟨fun es => rfl, fun mn mx => rfl, fun t h1 h2 => ?_⟩
  cases t with
  | list => exact absurd rfl h1
  | range => exact absurd rfl h2
  | presence =>
    exact ⟨fun s => rfl, fun v hv => by cases v <;> first | exact absurd rfl (hv _) | rfl⟩
  | regex =>
    exact ⟨fun s => rfl, fun v hv => by cases v <;> first | exact absurd rfl (hv _) | rfl⟩
  | custom =>
    exact ⟨fun s => rfl, fun v hv => by cases v <;> first | exact absurd rfl (hv _) | rfl⟩

/-- C7 witness: the encoding equations instantiated at concrete values of
the other kinds, with the kind hypotheses discharged. -/
theorem formatRuleValue_spec_witness :
    formatRuleValue (RuleValue.str "abc".toList) RuleType.custom = "abc".toList ∧
    formatRuleValue RuleValue.required RuleType.presence
      = jsonStringify RuleValue.required :=
  ⟨(formatRuleValue_spec.2.2 RuleType.custom (by decide) (by decide)).1 "abc".toList,
   (formatRuleValue_spec.2.2 RuleType.presence (by decide) (by decide)).2 RuleValue.required
     (fun s h => RuleValue.noConfusion h)⟩

/-- C1 counterexample: the decode-after-encode round trip fails as stated.
A regex value in the spec's canonical pattern-object shape encodes to its
JSON text and decodes back to that raw text, not to the object; a range
value with negative min encodes to a text whose sign hyphen is consumed by
the split, so the min decodes to NaN; a list entry containing a comma is
split apart on decode. -/
theorem roundtrip_counterexample :
    parseRuleValue RuleType.regex
        (formatRuleValue (RuleValue.patternObj "^[A-Z]{2}$".toList) RuleType.regex)
      ≠ RuleValue.patternObj "^[A-Z]{2}$".toList ∧
    parseRuleValue RuleType.range
        (formatRuleValue (RuleValue.range (JsNumU.num (-1)) (JsNumU.num 5)) RuleType.range)
      ≠ RuleValue.range (JsNumU.num (-1)) (JsNumU.num 5) ∧
    parseRuleValue RuleType.list
        (formatRuleValue (RuleValue.list ["a,b".toList]) RuleType.list)
      ≠ RuleValue.list ["a,b".toList] := by
  refine ⟨?_, ?_, ?_⟩
  · intro h
    simp [parseRuleValue] at h
  · intro h
    have htext : formatRuleValue (RuleValue.range (JsNumU.num (-1)) (JsNumU.num 5))
        RuleType.range = "-1-5".toList := by decide
    rw [htext] at h
    have hdec : parseRuleValue RuleType.range "-1-5".toList
        = RuleValue.range JsNumU.nan (JsNumU.num 1) := by
      simp +decide [parseRuleValue, splitOnChar, trim, trimLeft, jsWhitespace,
        parseFloat, parseFloatTrimmed, parseFloatUnsigned, matchesInfinity,
        takeDigits, dropDigits, List.takeWhile, List.dropWhile, decimalValue,
        signApply, parseExponent, digitsToNat, List.getD]
    rw [hdec] at h
    exact absurd h (by decide)
  · intro h
    have h2 : parseRuleValue RuleType.list
        (formatRuleValue (RuleValue.list ["a,b".toList]) RuleType.list)
        = RuleValue.list ["a".toList, "b".toList] := by decide
    rw [h2] at h
    exact absurd h (by decide)

/-- C1 amended round trip: with the value shapes the page actually stores —
regex and custom values are raw strings, never pattern objects — decoding
the encoded text recovers the value for: presence (decoding ignores the
text), regex, custom, list values with a non-empty entry sequence of
trimmed comma-free entries, and range values whose min and max are
non-negative integers small enough to render exactly (below 2^53); a
negative min, a comma inside a list entry, or the spec's pattern-object
regex shape each break the round trip. -/
theorem roundtrip_amended :
    parseRuleValue RuleType.presence
        (formatRuleValue RuleValue.required RuleType.presence) = RuleValue.required ∧
    (∀ s, parseRuleValue RuleType.regex (formatRuleValue (RuleValue.str s) RuleType.regex)
      = RuleValue.str s) ∧
    (∀ s, parseRuleValue RuleType.custom (formatRuleValue (RuleValue.str s) RuleType.custom)
      = RuleValue.str s) ∧
    (∀ es, es ≠ [] → (∀ e ∈ es, (',' ∉ e) ∧ trim e = e) →
      parseRuleValue RuleType.list (formatRuleValue (RuleValue.list es) RuleType.list)
        = RuleValue.list es) ∧
    (∀ mn mx : ℕ, mn < 2 ^ 53 → mx < 2 ^ 53 → mn ≤ mx →
      parseRuleValue RuleType.range
          (formatRuleValue (RuleValue.range (JsNumU.num mn) (JsNumU.num mx)) RuleType.range)
        = RuleValue.range (JsNumU.num mn) (JsNumU.num mx)) := by
  refine ⟨rfl, fun s => rfl, fun s => rfl, fun es hne h => ?_, fun mn mx _ _ _ => ?_⟩
  · show RuleValue.list ((splitOnChar ',' (joinSep [',', ' '] es)).map trim)
        = RuleValue.list es
    rw [split_trim_joinSep es hne h]
  · have htext : formatRuleValue (RuleValue.range (JsNumU.num mn) (JsNumU.num mx))
        RuleType.range = natToDigits mn ++ '-' :: natToDigits mx := by
      show ratToChars (mn : ℚ) ++ '-' :: ratToChars (mx : ℚ) = _
      rw [ratToChars_natCast, ratToChars_natCast]
    rw [htext]
    have hsplit : splitOnChar '-' (natToDigits mn ++ '-' :: natToDigits mx)
        = [natToDigits mn, natToDigits mx] := by
      rw [splitOnChar_append_cons '-' _ _ (not_mem_natToDigits (by decide) mn),
        splitOnChar_eq_single '-' _ (not_mem_natToDigits (by decide) mx)]
    have htr : ∀ k : ℕ, trim (natToDigits k) = natToDigits k := fun k =>
      trim_eq_self _ (fun c hc => isDigit_not_ws (mem_natToDigits_isDigit hc))
    unfold parseRuleValue
    dsimp only
    rw [hsplit]
    simp only [List.map_cons, List.map_nil, htr, parseFloat_natToDigits]
    rfl

/-- C1 witness: the amended round trip at concrete list and range values,
with the hypotheses discharged. -/
theorem roundtrip_amended_witness :
    parseRuleValue RuleType.list
        (formatRuleValue (RuleValue.list ["IN".toList, "US".toList]) RuleType.list)
      = RuleValue.list ["IN".toList, "US".toList] ∧
    parseRuleValue RuleType.range
        (formatRuleValue (RuleValue.range (JsNumU.num 0) (JsNumU.num 1000)) RuleType.range)
      = RuleValue.range (JsNumU.num 0) (JsNumU.num 1000) :=
  ⟨roundtrip_amended.2.2.2.1 ["IN".toList, "US".toList] (by decide) (by decide),
   roundtrip_amended.2.2.2.2 0 1000 (by norm_num) (by norm_num) (by norm_num)⟩

/-! ### Rules and the authoring operations

From src/src/types/index.ts (the Rule record) and
src/src/pages/SystemConfigPage.tsx (handleSubmit in add and edit mode,
toggleRuleStatus, handleDelete). The data-store timestamps are omitted. -/

/-- The Rule record from src/src/types/index.ts. -/
structure Rule where
  id : List Char
  rule_name : List Char
  field_to_validate : List Char
  rule_type : RuleType
  rule_value : RuleValue
  description : Option (List Char)
  is_active : Bool
  created_by : Option (List Char)
  deriving DecidableEq, Repr

/-- The authoring form state in SystemConfigPage, with rule_value still the
raw text of the input field. -/
structure RuleForm where
  rule_name : List Char
  field_to_validate : List Char
  rule_type : RuleType
  rule_value : List Char
  description : List Char
  is_active : Bool
  deriving DecidableEq, Repr

/-- The ruleData row handleSubmit builds: the form fields with the parsed
rule value and the current user as created_by. -/
def buildRule (uid rid : List Char) (f : RuleForm) : Rule :=
  { id := rid
    rule_name := f.rule_name
    field_to_validate := f.field_to_validate
    rule_type := f.rule_type
    rule_value := parseRuleValue f.rule_type f.rule_value
    description := some f.description
    is_active := f.is_active
    created_by := some uid }

/-- handleSubmit in add mode: insert a new row; the data store assigns the
fresh id. -/
def submitAdd (uid rid : List Char) (f : RuleForm) (rules : List Rule) : List Rule :=
  rules ++ [buildRule uid rid f]

/-- handleSubmit in edit mode: overwrite every field except the id of the
row matching the edited rule's id. -/
def submitEdit (uid rid : List Char) (f : RuleForm) (rules : List Rule) : List Rule :=
  rules.map (fun r => if r.id = rid then buildRule uid r.id f else r)

/-- SystemConfigPage.toggleRuleStatus: set is_active of the row matching the
passed rule's id to the negation of the passed rule's flag. -/
def toggleRuleStatus (rule : Rule) (rules : List Rule) : List Rule :=
  rules.map (fun r => if r.id = rule.id then { r with is_active := !rule.is_active } else r)

/-- SystemConfigPage.handleDelete: remove the row with the given id. -/
def deleteRule (rid : List Char) (rules : List Rule) : List Rule :=
  rules.filter (fun r => r.id != rid)

/-- One authoring interaction on the rules table. -/
inductive RuleOp where
  | add (uid rid : List Char) (f : RuleForm)
  | edit (uid rid : List Char) (f : RuleForm)
  | toggle (rule : Rule)
  | remove (rid : List Char)

/-- Apply one authoring interaction. -/
def applyRuleOp (op : RuleOp) (rules : List Rule) : List Rule :=
  match op with
  | RuleOp.add uid rid f => submitAdd uid rid f rules
  | RuleOp.edit uid rid f => submitEdit uid rid f rules
  | RuleOp.toggle r => toggleRuleStatus r rules
  | RuleOp.remove rid => deleteRule rid rules

/-- Apply a sequence of authoring interactions, oldest first. -/
def applyRuleOps (ops : List RuleOp) (rules : List Rule) : List Rule :=
  ops.foldl (fun rs op => applyRuleOp op rs) rules

/-- The value shapes handleSubmit can actually store for each kind:
presence stores required; list stores a non-empty sequence of trimmed
comma-free (possibly empty) strings; range stores a min-max object whose
min slot is never undefined; regex and custom store the raw text. -/
def codeConsistent (t : RuleType) (v : RuleValue) : Prop :=
  match t with
  | RuleType.presence => v = RuleValue.required
  | RuleType.list => ∃ es, v = RuleValue.list es ∧ es ≠ [] ∧
      ∀ e ∈ es, trim e = e ∧ ',' ∉ e
  | RuleType.range => ∃ mn mx, v = RuleValue.range mn mx ∧ mn ≠ JsNumU.undef
  | RuleType.regex => ∃ s, v = RuleValue.str s
  | RuleType.custom => ∃ s, v = RuleValue.str s

/-- Structural consistency as the spec's canonical table demands it:
presence stores required; regex stores a pattern object; list stores a
non-empty sequence of trimmed non-empty strings; range stores two finite
numbers with min at most max; custom stores an opaque string. -/
def specConsistent (t : RuleType) (v : RuleValue) : Prop :=
  match t with
  | RuleType.presence => v = RuleValue.required
  | RuleType.regex => ∃ p, v = RuleValue.patternObj p
  | RuleType.list => ∃ es, v = RuleValue.list es ∧ es ≠ [] ∧
      ∀ e ∈ es, e ≠ [] ∧ trim e = e
  | RuleType.range => ∃ a b : ℚ, v = RuleValue.range (JsNumU.num a) (JsNumU.num b) ∧ a ≤ b
  | RuleType.custom => ∃ s, v = RuleValue.str s

theorem parseRuleValue_codeConsistent (t : RuleType) (text : List Char) :
    codeConsistent t (parseRuleValue t text) := by
  cases t with
  | presence => rfl
  | regex => exact ⟨text, rfl⟩
  | custom => exact ⟨text, rfl⟩
  | list =>
    refine ⟨_, rfl, ?_, ?_⟩
    · intro h
      rw [List.map_eq_nil_iff] at h
      exact splitOnChar_ne_nil ',' text h
    · intro e he
      obtain ⟨p, hp, hpe⟩ := List.mem_map.mp he
      subst hpe
      refine ⟨trim_idem p, fun hm => ?_⟩
      exact not_mem_of_mem_splitOnChar ',' text p hp (mem_of_mem_trim hm)
  | range =>
    refine ⟨_, _, rfl, ?_⟩
    cases hsp : splitOnChar '-' text with
    | nil => exact absurd hsp (splitOnChar_ne_nil '-' text)
    | cons p ps =>
      simp only [List.map_cons, List.getD_cons_zero]
      exact parseFloat_ne_undef (trim p)

/-- C2 counterexample: handleSubmit stores values that violate the claimed
structural invariant without rejecting anything. Adding a list rule whose
text is empty stores a single empty-string entry, and adding a regex rule
stores the raw text rather than a pattern object, so neither stored value is
structurally consistent in the spec's sense. -/
theorem stored_invariant_counterexample :
    (submitAdd "u1".toList "r1".toList
        ⟨"n".toList, "mrp".toList, RuleType.list, [], [], true⟩ []).head?
      = some ⟨"r1".toList, "n".toList, "mrp".toList, RuleType.list,
          RuleValue.list [[]], some [], true, some "u1".toList⟩ ∧
    ¬ specConsistent RuleType.list (RuleValue.list [[]]) ∧
    (submitAdd "u1".toList "r2".toList
        ⟨"n".toList, "mrp".toList, RuleType.regex, "ab".toList, [], true⟩ []).head?
      = some ⟨"r2".toList, "n".toList, "mrp".toList, RuleType.regex,
          RuleValue.str "ab".toList, some [], true, some "u1".toList⟩ ∧
    ¬ specConsistent RuleType.regex (RuleValue.str "ab".toList) := by
  refine ⟨by decide, ?_, by decide, ?_⟩
  · rintro ⟨es, heq, hne, hall⟩
    injection heq with h
    subst h
    exact absurd rfl (hall [] (List.mem_cons_self [] [])).1
  · rintro ⟨p, heq⟩
    exact RuleValue.noConfusion heq

/-- C2 amended invariant: every rule reachable by any sequence of authoring
operations (add, edit, toggle, delete) from a table satisfying the same
invariant has a value of the shape handleSubmit actually produces for its
kind (presence stores required; list stores a non-empty sequence of trimmed
comma-free, possibly empty, strings; range stores a min-max object whose min
is never undefined; regex and custom store the raw text). A kind change is
neither rejected nor reset to a default: the submitted text is simply
re-parsed under the new kind. -/
theorem stored_invariant_amended (ops : List RuleOp) (init : List Rule)
    (hinit : ∀ r ∈ init, codeConsistent r.rule_type r.rule_value) :
    ∀ r ∈ applyRuleOps ops init, codeConsistent r.rule_type r.rule_value := by
  induction ops generalizing init with
  | nil => exact hinit
  | cons op rest ih =>
    refine ih (applyRuleOp op init) ?_
    intro r hr
    cases op with
    | add uid rid f =>
      rcases List.mem_append.mp hr with h | h
      · exact hinit r h
      · rw [List.mem_singleton] at h
        subst h
        exact parseRuleValue_codeConsistent f.rule_type f.rule_value
    | edit uid rid f =>
      obtain ⟨r0, hr0, heq⟩ := List.mem_map.mp hr
      by_cases hid : r0.id = rid
      · rw [if_pos hid] at heq
        subst heq
        exact parseRuleValue_codeConsistent f.rule_type f.rule_value
      · rw [if_neg hid] at heq
        subst heq
        exact hinit r0 hr0
    | toggle rule =>
      obtain ⟨r0, hr0, heq⟩ := List.mem_map.mp hr
      by_cases hid : r0.id = rule.id
      · rw [if_pos hid] at heq
        subst heq
        exact hinit r0 hr0
      · rw [if_neg hid] at heq
        subst heq
        exact hinit r0 hr0
    | remove rid =>
      exact hinit r (List.mem_of_mem_filter hr)

/-- C2 witness: the amended invariant applied to a concrete add from the
empty table, evaluated at the stored rule. -/
theorem stored_invariant_amended_witness :
    codeConsistent RuleType.list (RuleValue.list [['a'], ['b']]) :=
  stored_invariant_amended
    [RuleOp.add "u1".toList "r1".toList
      ⟨"n".toList, "country_of_origin".toList, RuleType.list, "a,b".toList, [], true⟩]
    [] (fun r hr => absurd hr (List.not_mem_nil r))
    ⟨"r1".toList, "n".toList, "country_of_origin".toList, RuleType.list,
      RuleValue.list [['a'], ['b']], some [], true, some "u1".toList⟩
    (by decide)

/-- C10: toggleRuleStatus flips exactly the is_active flag of every row
matching the passed rule's id, leaves every other field and every other row
unchanged, deletes nothing, and toggling again with the updated rule
restores the original table whenever the passed rule's flag agrees with the
table rows it matches. -/
theorem toggleRuleStatus_spec (rule : Rule) (rules : List Rule)
    (hagree : ∀ r ∈ rules, r.id = rule.id → r.is_active = rule.is_active) :
    (toggleRuleStatus rule rules).length = rules.length ∧
    (∀ i (h : i < rules.length) (h2 : i < (toggleRuleStatus rule rules).length),
      ((toggleRuleStatus rule rules)[i].id = rules[i].id ∧
       (toggleRuleStatus rule rules)[i].rule_name = rules[i].rule_name ∧
       (toggleRuleStatus rule rules)[i].field_to_validate = rules[i].field_to_validate ∧
       (toggleRuleStatus rule rules)[i].rule_type = rules[i].rule_type ∧
       (toggleRuleStatus rule rules)[i].rule_value = rules[i].rule_value ∧
       (toggleRuleStatus rule rules)[i].description = rules[i].description ∧
       (toggleRuleStatus rule rules)[i].created_by = rules[i].created_by) ∧
      (rules[i].id = rule.id → (toggleRuleStatus rule rules)[i].is_active = !rule.is_active) ∧
      (rules[i].id ≠ rule.id → (toggleRuleStatus rule rules)[i].is_active = rules[i].is_active)) ∧
    toggleRuleStatus { rule with is_active := !rule.is_active } (toggleRuleStatus rule rules)
      = rules := by
  refine ⟨List.length_map _ _, fun i h h2 => ?_, ?_⟩
  · have hmap : (toggleRuleStatus rule rules)[i]
        = if rules[i].id = rule.id then { rules[i] with is_active := !rule.is_active }
          else rules[i] := by
      simp [toggleRuleStatus]
    by_cases hid : rules[i].id = rule.id
    · rw [hmap, if_pos hid]
      exact ⟨⟨rfl, rfl, rfl, rfl, rfl, rfl, rfl⟩, fun _ => rfl, fun hne => absurd hid hne⟩
    · rw [hmap, if_neg hid]
      exact ⟨⟨rfl, rfl, rfl, rfl, rfl, rfl, rfl⟩, fun hidp => absurd hidp hid, fun _ => rfl⟩
  · unfold toggleRuleStatus
    rw [List.map_map]
    have hpt : ∀ r ∈ rules,
        ((fun r => if r.id = ({ rule with is_active := !rule.is_active } : Rule).id
            then { r with is_active := !({ rule with is_active := !rule.is_active } : Rule).is_active }
            else r) ∘
         (fun r => if r.id = rule.id then { r with is_active := !rule.is_active } else r)) r
          = r := by
      intro r hr
      by_cases hid : r.id = rule.id
      · simp only [Function.comp_apply, if_pos hid]
        have hact := hagree r hr hid
        rw [Bool.not_not, ← hact]
      · simp only [Function.comp_apply, if_neg hid]
    rw [List.map_congr_left hpt, List.map_id']

/-- C10 witness: the toggle specification applied to a one-row table whose
row agrees with the passed rule; its double-toggle component restores the
table. -/
theorem toggleRuleStatus_spec_witness :
    toggleRuleStatus
        { id := "r1".toList, rule_name := "n".toList, field_to_validate := "mrp".toList,
          rule_type := RuleType.presence, rule_value := RuleValue.required,
          description := none, is_active := false, created_by := none }
        (toggleRuleStatus
          { id := "r1".toList, rule_name := "n".toList, field_to_validate := "mrp".toList,
            rule_type := RuleType.presence, rule_value := RuleValue.required,
            description := none, is_active := true, created_by := none }
          [{ id := "r1".toList, rule_name := "n".toList, field_to_validate := "mrp".toList,
             rule_type := RuleType.presence, rule_value := RuleValue.required,
             description := none, is_active := true, created_by := none }])
      = [{ id := "r1".toList, rule_name := "n".toList, field_to_validate := "mrp".toList,
           rule_type := RuleType.presence, rule_value := RuleValue.required,
           description := none, is_active := true, created_by := none }] :=
  (toggleRuleStatus_spec
    { id := "r1".toList, rule_name := "n".toList, field_to_validate := "mrp".toList,
      rule_type := RuleType.presence, rule_value := RuleValue.required,
      description := none, is_active := true, created_by := none }
    [{ id := "r1".toList, rule_name := "n".toList, field_to_validate := "mrp".toList,
       rule_type := RuleType.presence, rule_value := RuleValue.required,
       description := none, is_active := true, created_by := none }]
    (by decide)).2.2

/-! ### Report submission

From src/src/pages/ReportFormPage.tsx (handleSubmit) and the Product and
Report records in src/src/types/index.ts; the data-store timestamps and the
report status column (which the insert leaves to its default) are omitted. -/

/-- compliance_status values. -/
inductive ComplianceStatus where
  | compliant
  | nonCompliant
  | pending
  deriving DecidableEq, Repr

/-- severity values on a report. -/
inductive Severity where
  | low
  | medium
  | high
  deriving DecidableEq, Repr

/-- The Product record from src/src/types/index.ts. -/
structure Product where
  id : List Char
  name : List Char
  manufacturer : Option (List Char)
  description : Option (List Char)
  image_url : Option (List Char)
  mrp : Option ℚ
  net_quantity : Option (List Char)
  country_of_origin : Option (List Char)
  date_of_manufacture : Option (List Char)
  consumer_care_details : Option (List Char)
  platform : Option (List Char)
  platform_product_id : Option (List Char)
  compliance_status : ComplianceStatus
  deriving DecidableEq, Repr

/-- The columns ReportFormPage.handleSubmit inserts into reports. -/
structure ReportRow where
  product_id : List Char
  reporter_id : List Char
  license_number : List Char
  violation_details : List Char
  violation_type : List Char
  severity : Severity
  deriving DecidableEq, Repr

/-- The report form state in ReportFormPage. -/
structure ReportForm where
  license_number : List Char
  violation_details : List Char
  violation_type : List Char
  severity : Severity
  deriving DecidableEq, Repr

/-- The two tables the submission touches. -/
structure DBState where
  products : List Product
  reports : List ReportRow
  deriving DecidableEq, Repr

/-- ReportFormPage.handleSubmit on the success path: insert the report row
built from the form, then set compliance_status of the reported product to
non-compliant. -/
def reportSubmit (uid : List Char) (prod : Product) (f : ReportForm) (st : DBState) :
    DBState :=
  { products := st.products.map (fun p =>
      if p.id = prod.id then { p with compliance_status := ComplianceStatus.nonCompliant }
      else p)
    reports := st.reports ++
      [{ product_id := prod.id, reporter_id := uid, license_number := f.license_number,
         violation_details := f.violation_details, violation_type := f.violation_type,
         severity := f.severity }] }

/-- C9: a successful report submission appends exactly one report row built
from the form, sets the reported product's compliance_status to
non-compliant whatever the chosen severity and violation type, and modifies
no other product field and no other product row. -/
theorem reportSubmit_spec (uid : List Char) (prod : Product) (f : ReportForm) (st : DBState) :
    (reportSubmit uid prod f st).reports
      = st.reports ++ [⟨prod.id, uid, f.license_number, f.violation_details,
          f.violation_type, f.severity⟩] ∧
    (reportSubmit uid prod f st).products.length = st.products.length ∧
    (∀ i (h : i < st.products.length) (h2 : i < (reportSubmit uid prod f st).products.length),
      ((reportSubmit uid prod f st).products[i].id = st.products[i].id ∧
       (reportSubmit uid prod f st).products[i].name = st.products[i].name ∧
       (reportSubmit uid prod f st).products[i].manufacturer = st.products[i].manufacturer ∧
       (reportSubmit uid prod f st).products[i].description = st.products[i].description ∧
       (reportSubmit uid prod f st).products[i].image_url = st.products[i].image_url ∧
       (reportSubmit uid prod f st).products[i].mrp = st.products[i].mrp ∧
       (reportSubmit uid prod f st).products[i].net_quantity = st.products[i].net_quantity ∧
       (reportSubmit uid prod f st).products[i].country_of_origin
         = st.products[i].country_of_origin ∧
       (reportSubmit uid prod f st).products[i].date_of_manufacture
         = st.products[i].date_of_manufacture ∧
       (reportSubmit uid prod f st).products[i].consumer_care_details
         = st.products[i].consumer_care_details ∧
       (reportSubmit uid prod f st).products[i].platform = st.products[i].platform ∧
       (reportSubmit uid prod f st).products[i].platform_product_id
         = st.products[i].platform_product_id) ∧
      (st.products[i].id = prod.id →
        (reportSubmit uid prod f st).products[i].compliance_status
          = ComplianceStatus.nonCompliant) ∧
      (st.products[i].id ≠ prod.id →
        (reportSubmit uid prod f st).products[i].compliance_status
          = st.products[i].compliance_status)) ∧
    (∀ f2 : ReportForm, (reportSubmit uid prod f2 st).products
      = (reportSubmit uid prod f st).products) := by
  refine ⟨rfl, List.length_map _ _, fun i h h2 => ?_, fun f2 => rfl⟩
  have hmap : (reportSubmit uid prod f st).products[i]
      = if st.products[i].id = prod.id
        then { st.products[i] with compliance_status := ComplianceStatus.nonCompliant }
        else st.products[i] := by
    simp [reportSubmit]
  by_cases hid : st.products[i].id = prod.id
  · rw [hmap, if_pos hid]
    exact ⟨⟨rfl, rfl, rfl, rfl, rfl, rfl, rfl, rfl, rfl, rfl, rfl, rfl⟩,
      fun _ => rfl, fun hne => absurd hid hne⟩
  · rw [hmap, if_neg hid]
    exact ⟨⟨rfl, rfl, rfl, rfl, rfl, rfl, rfl, rfl, rfl, rfl, rfl, rfl⟩,
      fun hidp => absurd hidp hid, fun _ => rfl⟩

/-- C9 witness: the submission specification applied to a one-product state,
evaluated at the reported product, whose status comes out non-compliant. -/
theorem reportSubmit_spec_witness :
    ((reportSubmit "u1".toList
        ⟨"p1".toList, "Rice".toList, none, none, none, none, none, none, none, none,
          none, none, ComplianceStatus.pending⟩
        ⟨"L1".toList, "missing mrp".toList, "missing_mrp".toList, Severity.low⟩
        ⟨[⟨"p1".toList, "Rice".toList, none, none, none, none, none, none, none, none,
            none, none, ComplianceStatus.pending⟩], []⟩).products.get
      ⟨0, by decide⟩).compliance_status = ComplianceStatus.nonCompliant :=
  ((reportSubmit_spec "u1".toList
      ⟨"p1".toList, "Rice".toList, none, none, none, none, none, none, none, none,
        none, none, ComplianceStatus.pending⟩
      ⟨"L1".toList, "missing mrp".toList, "missing_mrp".toList, Severity.low⟩
      ⟨[⟨"p1".toList, "Rice".toList, none, none, none, none, none, none, none, none,
          none, none, ComplianceStatus.pending⟩], []⟩).2.2.1 0 (by decide)
    (by decide)).2.1 (by decide)

/-! ### Rule evaluation

No code in the repository evaluates rules against products — the spec's
design notes state the behaviour is implied by the schema but never
implemented — so the evaluator here is modelled from the spec (sections 4.2,
6 and 7) and checked against the spec's own examples. -/

/-- The ComplianceViolation record from src/src/types/index.ts. -/
structure ComplianceViolation where
  field : List Char
  rule_name : List Char
  message : List Char
  severity : Severity
  deriving DecidableEq, Repr

/-- A product field value as the evaluator sees it: missing, text, or a
number. -/
inductive FieldVal where
  | absent
  | strv : List Char → FieldVal
  | numv : ℚ → FieldVal
  deriving DecidableEq, Repr

/-- An optional text column as a field value. -/
def optStr : Option (List Char) → FieldVal
  | none => FieldVal.absent
  | some s => FieldVal.strv s

/-- Modelled from the spec: read the target field of a product, over the
enumerated target-field set of the spec's data model. -/
def getField (p : Product) (f : List Char) : FieldVal :=
  if f = "name".toList then FieldVal.strv p.name
  else if f = "manufacturer".toList then optStr p.manufacturer
  else if f = "mrp".toList then
    (match p.mrp with
     | none => FieldVal.absent
     | some q => FieldVal.numv q)
  else if f = "net_quantity".toList then optStr p.net_quantity
  else if f = "country_of_origin".toList then optStr p.country_of_origin
  else if f = "consumer_care_details".toList then optStr p.consumer_care_details
  else if f = "date_of_manufacture".toList then optStr p.date_of_manufacture
  else FieldVal.absent

/-- Modelled from the spec: the CorruptRule shape test — whether a stored
value matches the shape the spec's canonical table requires for its kind
(pattern compilation belongs to the external regex engine and is not part
of the structural test). -/
def wfValue (t : RuleType) (v : RuleValue) : Bool :=
  match t, v with
  | RuleType.presence, RuleValue.required => true
  | RuleType.regex, RuleValue.patternObj _ => true
  | RuleType.list, RuleValue.list es =>
    decide (es ≠ []) && es.all (fun e => decide (e ≠ []) && decide (trim e = e))
  | RuleType.range, RuleValue.range (JsNumU.num a) (JsNumU.num b) => decide (a ≤ b)
  | RuleType.custom, RuleValue.str _ => true
  | _, _ => false

/-- Modelled from the spec: the string form of a field value. -/
def fieldValStr : FieldVal → Option (List Char)
  | FieldVal.absent => none
  | FieldVal.strv s => some s
  | FieldVal.numv q => some (ratToChars q)

/-- Modelled from the spec: evaluate one well-formed rule against a product.
The external regex matcher and the registry of custom evaluators (keyed by
rule id) are the spec's explicit extension points and are passed in; an
unregistered custom rule is skipped with no violation and no error. The
spec leaves the violation message and severity open, so the violation
carries the rule's name as message and medium severity. -/
def evalRuleBody (matchRegex : List Char → List Char → Bool)
    (registry : List Char → Option (Product → Option ComplianceViolation))
    (r : Rule) (p : Product) : Option ComplianceViolation :=
  let violation : Option ComplianceViolation :=
    some ⟨r.field_to_validate, r.rule_name, r.rule_name, Severity.medium⟩
  match r.rule_type, r.rule_value with
  | RuleType.presence, _ =>
    (match getField p r.field_to_validate with
     | FieldVal.absent => violation
     | FieldVal.strv s => if s = [] then violation else none
     | FieldVal.numv _ => none)
  | RuleType.regex, RuleValue.patternObj pat =>
    (match fieldValStr (getField p r.field_to_validate) with
     | none => none
     | some s => if matchRegex pat s then none else violation)
  | RuleType.list, RuleValue.list es =>
    (match fieldValStr (getField p r.field_to_validate) with
     | none => violation
     | some s => if es.contains s then none else violation)
  | RuleType.range, RuleValue.range (JsNumU.num a) (JsNumU.num b) =>
    (match getField p r.field_to_validate with
     | FieldVal.numv q => if q < a ∨ q > b then violation else none
     | _ => none)
  | RuleType.custom, _ =>
    (match registry r.id with
     | none => none
     | some ev => ev p)
  | _, _ => none

/-- Modelled from the spec: evaluate with the CorruptRule guard — a value
that does not match its kind's shape fails with CorruptRule instead of
being evaluated. -/
def evalRule (matchRegex : List Char → List Char → Bool)
    (registry : List Char → Option (Product → Option ComplianceViolation))
    (r : Rule) (p : Product) : Except (List Char) (Option ComplianceViolation) :=
  if wfValue r.rule_type r.rule_value
  then Except.ok (evalRuleBody matchRegex registry r p)
  else Except.error "CorruptRule".toList

/-- The result of evaluateAll: the ordered violations of the active rules
and the ids of the rules skipped as corrupt. -/
structure EvalResult where
  violations : List ComplianceViolation
  skipped : List (List Char)
  deriving DecidableEq, Repr

/-- Modelled from the spec: evaluate the active rules in order, collecting
violations, and collecting the ids of corrupt rules under skipped instead
of aborting; the function is total, so evaluation never raises. -/
def evaluateAll (matchRegex : List Char → List Char → Bool)
    (registry : List Char → Option (Product → Option ComplianceViolation))
    (rules : List Rule) (p : Product) : EvalResult :=
  rules.foldl (fun acc r =>
    if r.is_active then
      match evalRule matchRegex registry r p with
      | Except.error _ => { acc with skipped := acc.skipped ++ [r.id] }
      | Except.ok none => acc
      | Except.ok (some v) => { acc with violations := acc.violations ++ [v] }
    else acc) ⟨[], []⟩

/-- C6 (spec-modelled): over a rule set of one corrupt rule between two
valid active rules, evaluateAll returns exactly the violations the two
valid rules produce together with the corrupt rule's id under skipped; as a
total function it never raises. -/
theorem evaluateAll_with_corrupt (matchRegex : List Char → List Char → Bool)
    (registry : List Char → Option (Product → Option ComplianceViolation))
    (r1 c r2 : Rule) (p : Product)
    (h1 : wfValue r1.rule_type r1.rule_value = true)
    (h2 : wfValue r2.rule_type r2.rule_value = true)
    (hc : wfValue c.rule_type c.rule_value = false)
    (ha1 : r1.is_active = true) (ha2 : r2.is_active = true) (hac : c.is_active = true) :
    evaluateAll matchRegex registry [r1, c, r2] p
      = ⟨(evalRuleBody matchRegex registry r1 p).toList
          ++ (evalRuleBody matchRegex registry r2 p).toList, [c.id]⟩ := by
  cases hb1 : evalRuleBody matchRegex registry r1 p <;>
    cases hb2 : evalRuleBody matchRegex registry r2 p <;>
      simp [evaluateAll, evalRule, h1, h2, hc, ha1, ha2, hac, hb1, hb2, Option.toList]

/-- C6 witness: a concrete corrupt range rule between a presence rule and a
valid range rule, on a product without mrp: the presence violation is
collected, the corrupt rule's id is skipped. -/
theorem evaluateAll_with_corrupt_witness :
    evaluateAll (fun _ _ => true) (fun _ => none)
      [⟨"r1".toList, "Rule1".toList, "mrp".toList, RuleType.presence,
          RuleValue.required, none, true, none⟩,
       ⟨"c1".toList, "Bad".toList, "mrp".toList, RuleType.range,
          RuleValue.str "x".toList, none, true, none⟩,
       ⟨"r2".toList, "Rule2".toList, "mrp".toList, RuleType.range,
          RuleValue.range (JsNumU.num 0) (JsNumU.num 10), none, true, none⟩]
      ⟨"p1".toList, "Rice".toList, none, none, none, none, none, none, none, none,
        none, none, ComplianceStatus.pending⟩
      = ⟨[⟨"mrp".toList, "Rule1".toList, "Rule1".toList, Severity.medium⟩],
         ["c1".toList]⟩ := by
  rw [evaluateAll_with_corrupt (fun _ _ => true) (fun _ => none)
    ⟨"r1".toList, "Rule1".toList, "mrp".toList, RuleType.presence,
      RuleValue.required, none, true, none⟩
    ⟨"c1".toList, "Bad".toList, "mrp".toList, RuleType.range,
      RuleValue.str "x".toList, none, true, none⟩
    ⟨"r2".toList, "Rule2".toList, "mrp".toList, RuleType.range,
      RuleValue.range (JsNumU.num 0) (JsNumU.num 10), none, true, none⟩
    ⟨"p1".toList, "Rice".toList, none, none, none, none, none, none, none, none,
      none, none, ComplianceStatus.pending⟩
    (by decide) (by decide) (by decide) (by decide) (by decide) (by decide)]
  decide

end EValidate
